import Mathlib

/-!
Verification of the goaround round-robin time-series database.

The Go sources (db.go, timebox.go, persistence.go) are shallowly embedded:

* Timestamps (`time.Time`) are modelled as `ℤ` — seconds since the Unix
  epoch, in UTC.  The program compares times with `Before` (strict `<`),
  subtracts them (`Sub(..).Seconds()`), and aligns them via `t.Unix()`
  arithmetic, so whole-second integers carry all the behaviour the
  program exercises.  Go's `%` on integers is truncated remainder, which
  is `Int.tmod`.
* `float32` sample values are modelled as `GoFloat`: an exact rational,
  an infinity, or NaN, with IEEE-style propagation rules for the
  operations the program performs (idealized: exact rational arithmetic,
  no rounding, no signed zero).  Division by zero yields NaN for `0/0`
  and a signed infinity otherwise, as in IEEE-754.
* The `Db` struct and its methods (`New`, `AddAt`, `moveForward`, `Len`,
  `Get`, `BoxTime`) are translated directly.  The unbounded `for` loop in
  the multi-timebox branch of `AddAt` becomes the well-founded recursion
  `catchUp` (it terminates because each `moveForward` strictly increases
  `currentStop` when the resolution is positive; Go would never terminate
  or would panic when `res ≤ 0`, a state unreachable from `New` with the
  documented positive resolution, and `catchUp` stops in that case).
* Go panics (out-of-range `Get`, indexing with an out-of-range `tail`)
  are modelled by `Option`/default values; the reachable states proved
  below keep every index in range, so the defaults are never exercised.
* The gob transport (Go standard library, external to this repository)
  is treated through its contract, as a faithful tagged stream of encoded
  values (`GobItem`): `persistence.go` encodes a version byte and then a
  `gobDb` record, and decodes them back in the same order.
-/

namespace Goaround

/-- Model of a Go `float32` value: an exact rational, a signed infinity
(`true` = negative), or NaN.  Arithmetic is idealized (exact, unrounded). -/
inductive GoFloat where
  | fin : ℚ → GoFloat
  | inf : Bool → GoFloat
  | nan : GoFloat
deriving DecidableEq

/-- IEEE-style addition on the float model. -/
def GoFloat.add : GoFloat → GoFloat → GoFloat
  | .nan, _ => .nan
  | _, .nan => .nan
  | .inf s, .inf s' => if s = s' then .inf s else .nan
  | .inf s, .fin _ => .inf s
  | .fin _, .inf s => .inf s
  | .fin a, .fin b => .fin (a + b)

/-- IEEE-style multiplication on the float model. -/
def GoFloat.mul : GoFloat → GoFloat → GoFloat
  | .nan, _ => .nan
  | _, .nan => .nan
  | .inf s, .inf s' => .inf (s != s')
  | .inf s, .fin a => if a = 0 then .nan else .inf (s != decide (a < 0))
  | .fin a, .inf s => if a = 0 then .nan else .inf (s != decide (a < 0))
  | .fin a, .fin b => .fin (a * b)

/-- IEEE-style division on the float model: `0/0` is NaN, `x/0` for
`x ≠ 0` is a signed infinity. -/
def GoFloat.div : GoFloat → GoFloat → GoFloat
  | .nan, _ => .nan
  | _, .nan => .nan
  | .inf _, .inf _ => .nan
  | .inf s, .fin a => .inf (s != decide (a < 0))
  | .fin _, .inf _ => .fin 0
  | .fin a, .fin b =>
      if b = 0 then (if a = 0 then .nan else .inf (decide (a < 0)))
      else .fin (a / b)

instance : Add GoFloat := ⟨GoFloat.add⟩
instance : Mul GoFloat := ⟨GoFloat.mul⟩
instance : Div GoFloat := ⟨GoFloat.div⟩

/-- The `Db` struct of db.go.  `entries` has fixed length (the capacity);
`head`/`tail` use the Go sentinel `-1` for the empty store; the three
time fields are UTC epoch seconds. -/
structure Db where
  res : ℤ
  entries : List GoFloat
  head : ℤ
  tail : ℤ
  currentStart : ℤ
  currentStop : ℤ
  lastEntry : ℤ
deriving DecidableEq

/-- `BoxTime` of timebox.go: `rem := t.Unix() % chunk` (Go `%` is
truncated remainder, `Int.tmod`), `start := unix - rem`,
`stop := start + chunk`. -/
def BoxTime (t : ℤ) (chunk : ℤ) : ℤ × ℤ :=
  let rem : ℤ := Int.tmod t chunk
  let unix' : ℤ := t - rem
  (unix', unix' + chunk)

/-- `New` of db.go.  Capacity is the length of the freshly allocated
`entries` slice (Go's `make` zero-fills it and rejects negative lengths,
hence `ℕ`).  The zero `time.Time` fields are modelled as epoch second 0;
the program never reads them while the store is empty. -/
def New (resolution : ℤ) (capacity : ℕ) : Db :=
  { res := resolution
    entries := List.replicate capacity (GoFloat.fin 0)
    head := -1
    tail := -1
    currentStart := 0
    currentStop := 0
    lastEntry := 0 }

/-- `Res` accessor of db.go. -/
def Res (db : Db) : ℤ := db.res

/-- `Capacity` accessor of db.go (`len(db.entries)`). -/
def Capacity (db : Db) : ℕ := db.entries.length

/-- `moveForward` of db.go: increment `tail` (wrapping), increment `head`
on collision (eviction), and recompute the current timebox by aligning
`currentStop + 1` second through `BoxTime`. -/
def moveForward (db : Db) : Db :=
  let newTail : ℤ := if db.tail + 1 ≥ (db.entries.length : ℤ) then 0 else db.tail + 1
  let newHead : ℤ :=
    if newTail = db.head then
      (if db.head + 1 ≥ (db.entries.length : ℤ) then 0 else db.head + 1)
    else db.head
  let st := BoxTime (db.currentStop + 1) db.res
  { db with tail := newTail, head := newHead, currentStart := st.1, currentStop := st.2 }

/-- One iteration of the catch-up loop in `AddAt`'s final branch:
`db.moveForward(); db.entries[db.tail] = 0`. -/
def stepZero (db : Db) : Db :=
  { moveForward db with
      entries := (moveForward db).entries.set (moveForward db).tail.toNat (GoFloat.fin 0) }

/-- The `for db.currentStop.Before(t)` loop of `AddAt`'s final branch.
The `1 ≤ db.res` conjunct only ensures termination of the model: with a
non-positive resolution Go's loop would divide by zero or never advance,
and such a store is unreachable from `New` with a positive resolution. -/
def catchUp (db : Db) (t : ℤ) : Db :=
  if h : 1 ≤ db.res ∧ db.currentStop < t then catchUp (stepZero db) t else db
termination_by (t - db.currentStop).toNat
decreasing_by
  have hlt : db.currentStop < (stepZero db).currentStop := by
    show db.currentStop < (moveForward db).currentStop
    have hmod := Int.tmod_lt_of_pos (db.currentStop + 1) (b := db.res) (by omega)
    simp only [moveForward, BoxTime]
    omega
  omega

/-- Iteration count of the catch-up loop (a specification device used to
describe which ring slots the loop writes). -/
def catchUpN (db : Db) (t : ℤ) : ℕ :=
  if h : 1 ≤ db.res ∧ db.currentStop < t then catchUpN (stepZero db) t + 1 else 0
termination_by (t - db.currentStop).toNat
decreasing_by
  have hlt : db.currentStop < (stepZero db).currentStop := by
    show db.currentStop < (moveForward db).currentStop
    have hmod := Int.tmod_lt_of_pos (db.currentStop + 1) (b := db.res) (by omega)
    simp only [moveForward, BoxTime]
    omega
  omega

/-- `AddAt` of db.go, branch for branch.  Go mutates `db` in place and
prints (then ignores) the out-of-order case; the model returns the new
store.  `List.getD`/`List.set` stand in for Go slice indexing, whose
panic on an out-of-range `tail` never fires in reachable states. -/
def AddAt (db : Db) (v : GoFloat) (t : ℤ) : Db :=
  let t0 := (BoxTime t db.res).1
  let t1 := (BoxTime t db.res).2
  if db.tail = -1 then
    { db with
      tail := 0
      head := 0
      entries := db.entries.set 0 v
      currentStart := t0
      currentStop := t1
      lastEntry := t }
  else if t < db.lastEntry then
    db
  else if t < db.currentStop then
    let prevFill : GoFloat := .fin ((db.lastEntry - db.currentStart : ℤ) : ℚ)
    let curDuration : GoFloat := .fin ((t - db.lastEntry : ℤ) : ℚ)
    let oldval := db.entries.getD db.tail.toNat (GoFloat.fin 0)
    let newval := (oldval * prevFill + v * curDuration) / (prevFill + curDuration)
    { db with entries := db.entries.set db.tail.toNat newval, lastEntry := t }
  else if t < db.currentStop + db.res then
    let prevFill : GoFloat := .fin ((db.lastEntry - db.currentStart : ℤ) : ℚ)
    let curDuration : GoFloat := .fin ((db.currentStop - db.lastEntry : ℤ) : ℚ)
    let oldval := db.entries.getD db.tail.toNat (GoFloat.fin 0)
    let newval := (oldval * prevFill + v * curDuration) / (prevFill + curDuration)
    let db1 := { db with entries := db.entries.set db.tail.toNat newval }
    let db2 := moveForward db1
    { db2 with entries := db2.entries.set db2.tail.toNat v, lastEntry := t }
  else
    let db3 := catchUp db t
    { db3 with entries := db3.entries.set db3.tail.toNat v, lastEntry := t }

/-- `Len` of db.go. -/
def Len (db : Db) : ℤ :=
  if db.tail = -1 then 0
  else if db.head ≤ db.tail then db.tail - db.head + 1
  else (db.entries.length : ℤ) - db.head + db.tail + 1

/-- `Get` of db.go.  Go takes an `int` index and panics when it is out of
range; the model takes a natural index and returns `none` for the panic. -/
def Get (db : Db) (i : ℕ) : Option GoFloat :=
  if Len db ≤ (i : ℤ) then none
  else if db.head ≤ db.tail then db.entries[(db.head + i).toNat]?
  else if db.head + i < (db.entries.length : ℤ) then db.entries[(db.head + i).toNat]?
  else db.entries[(db.head + i - db.entries.length).toNat]?

/-- The exported mirror struct `gobDb` of persistence.go. -/
structure gobDb where
  Res : ℤ
  Entries : List GoFloat
  Head : ℤ
  Tail : ℤ
  CurrentStart : ℤ
  CurrentStop : ℤ
  LastEntry : ℤ
deriving DecidableEq

/-- The version tag `gobDbGobVersion byte = 1` of persistence.go. -/
def gobDbGobVersion : ℕ := 1

/-- One value in a gob stream.  The gob transport (Go standard library,
external to this repository) is modelled by its contract: each `Encode`
call appends one faithfully recoverable tagged value, and each `Decode`
call consumes one, failing on exhaustion or a type mismatch. -/
inductive GobItem where
  | byteVal : ℕ → GobItem
  | dbVal : gobDb → GobItem
deriving DecidableEq

/-- `GobEncode` of persistence.go: encode the version byte, then the
`gobDb` mirror of the store's fields. -/
def GobEncode (db : Db) : List GobItem :=
  [GobItem.byteVal gobDbGobVersion,
   GobItem.dbVal ⟨db.res, db.entries, db.head, db.tail,
                  db.currentStart, db.currentStop, db.lastEntry⟩]

/-- `GobDecode` of persistence.go: reject empty input, decode and check
the version byte, decode the `gobDb` record, and only then overwrite the
receiver's fields.  Go mutates the receiver only after every check has
passed, so an error leaves it untouched; the model makes that explicit by
returning the untouched-on-error result through `Except`. -/
def GobDecode (db : Db) (b : List GobItem) : Except String Db :=
  match b with
  | [] => .error ("rrdb.GobDecode: no data")
  | GobItem.byteVal version :: rest =>
      if version ≠ gobDbGobVersion then .error ("rrdb.GobDecode: unknown version")
      else
        match rest with
        | GobItem.dbVal d :: _ =>
            .ok { res := d.Res
                  entries := d.Entries
                  head := d.Head
                  tail := d.Tail
                  currentStart := d.CurrentStart
                  currentStop := d.CurrentStop
                  lastEntry := d.LastEntry }
        | _ => .error ("gob: decode failed")
  | _ => .error ("gob: decode failed")

/-- Index well-formedness: either the Go empty sentinel on both indices,
or both ring indices in range. -/
def InvIdx (db : Db) : Prop :=
  (db.tail = -1 ∧ db.head = -1) ∨
  (0 ≤ db.tail ∧ db.tail < db.entries.length ∧
   0 ≤ db.head ∧ db.head < db.entries.length)

/-- Time well-formedness of a non-empty store (the state `AddAt`
maintains when the resolution is at least 2 and timestamps nonnegative):
the current box is aligned, spans one resolution, and contains the last
entry — possibly on its stop boundary. -/
def InvT (db : Db) : Prop :=
  db.tail = -1 ∨
  (0 ≤ db.currentStart ∧ db.currentStart ≤ db.lastEntry ∧
   db.lastEntry ≤ db.currentStop ∧ db.currentStop = db.currentStart + db.res ∧
   db.res ∣ db.currentStart)

/-- Stores reachable from `New` by any sequence of `AddAt` insertions. -/
inductive Reachable (res : ℤ) (cap : ℕ) : Db → Prop where
  | base : Reachable res cap (New res cap)
  | step (db : Db) (v : GoFloat) (t : ℤ) :
      Reachable res cap db → Reachable res cap (AddAt db v t)

/-- Stores reachable from `New` by `AddAt` insertions whose timestamps
are all at or after the Unix epoch. -/
inductive ReachableNN (res : ℤ) (cap : ℕ) : Db → Prop where
  | base : ReachableNN res cap (New res cap)
  | step (db : Db) (v : GoFloat) (t : ℤ) :
      ReachableNN res cap db → 0 ≤ t → ReachableNN res cap (AddAt db v t)

/-- The stop time returned by `BoxTime` is the start time plus the chunk. -/
theorem boxTime_stop (t r : ℤ) : (BoxTime t r).2 = (BoxTime t r).1 + r := rfl

/-- The start time returned by `BoxTime` is a multiple of the chunk. -/
theorem boxTime_dvd (t r : ℤ) : r ∣ (BoxTime t r).1 :=
  ⟨t.tdiv r, by simp only [BoxTime, Int.tmod_def]; ring⟩

/-- For a nonnegative time, the start of its box is at most the time. -/
theorem boxTime_start_le (t r : ℤ) (ht : 0 ≤ t) : (BoxTime t r).1 ≤ t := by
  have := Int.tmod_nonneg r ht
  simp only [BoxTime]; omega

/-- For a nonnegative time and positive chunk, the time is inside its box. -/
theorem boxTime_lt_stop (t r : ℤ) (hr : 0 < r) : t < (BoxTime t r).2 := by
  have := Int.tmod_lt_of_pos t hr
  simp only [BoxTime]; omega

/-- For a nonnegative time `t` the box start is `r * (t / r)` (floor
division), i.e. the greatest multiple of `r` that is at most `t`. -/
theorem boxTime_start_eq (t r : ℤ) (ht : 0 ≤ t) (hr : 0 < r) :
    (BoxTime t r).1 = r * (t / r) := by
  simp only [BoxTime]
  rw [Int.tmod_eq_emod ht (le_of_lt hr)]
  linarith [Int.ediv_add_emod t r]

/-- For a nonnegative time, the box start is nonnegative. -/
theorem boxTime_start_nonneg (t r : ℤ) (ht : 0 ≤ t) (hr : 0 < r) :
    0 ≤ (BoxTime t r).1 := by
  rw [boxTime_start_eq t r ht hr]
  exact mul_nonneg (by omega) (Int.ediv_nonneg ht (by omega))

theorem moveForward_res (db : Db) : (moveForward db).res = db.res := rfl

theorem moveForward_lastEntry (db : Db) : (moveForward db).lastEntry = db.lastEntry := rfl

theorem moveForward_entries (db : Db) : (moveForward db).entries = db.entries := rfl

theorem moveForward_stop_eq (db : Db) :
    (moveForward db).currentStop = (moveForward db).currentStart + db.res := rfl

theorem moveForward_start_dvd (db : Db) : db.res ∣ (moveForward db).currentStart :=
  boxTime_dvd _ _

/-- With a positive resolution, `moveForward` strictly increases the stop
time of the current box (this is what makes the catch-up loop terminate). -/
theorem moveForward_stop_lt (db : Db) (hres : 1 ≤ db.res) :
    db.currentStop < (moveForward db).currentStop := by
  have hmod := Int.tmod_lt_of_pos (db.currentStop + 1) (b := db.res) (by omega)
  simp only [moveForward, BoxTime]
  omega

/-- With a nonnegative stop time, the start of the next box is at most one
second past the old stop time. -/
theorem moveForward_start_le (db : Db) (hstop : 0 ≤ db.currentStop) :
    (moveForward db).currentStart ≤ db.currentStop + 1 := by
  have hmod := Int.tmod_nonneg db.res (a := db.currentStop + 1) (by omega)
  simp only [moveForward, BoxTime]
  omega

/-- With the resolution at least 2 and the old stop a multiple of the
resolution, `moveForward` moves to exactly the adjacent box. -/
theorem moveForward_adjacent (db : Db) (hres : 2 ≤ db.res)
    (hstop : 0 ≤ db.currentStop) (hdvd : db.res ∣ db.currentStop) :
    (moveForward db).currentStart = db.currentStop := by
  rcases hdvd with ⟨k, hk⟩
  have h1 : Int.tmod (db.currentStop + 1) db.res = 1 := by
    rw [Int.tmod_eq_emod (by omega) (by omega), hk, add_comm,
      Int.add_mul_emod_self_left]
    exact Int.emod_eq_of_lt (by omega) (by omega)
  simp only [moveForward, BoxTime]
  omega

/-- The new tail index after `moveForward`, as modular arithmetic. -/
theorem moveForward_tail_eq (db : Db) (h0 : 0 ≤ db.tail)
    (h1 : db.tail < db.entries.length) :
    (moveForward db).tail = (((db.tail.toNat + 1) % db.entries.length : ℕ) : ℤ) := by
  have hL : 0 < db.entries.length := by omega
  have ht : db.tail = (db.tail.toNat : ℤ) := (Int.toNat_of_nonneg h0).symm
  simp only [moveForward]
  by_cases hc : db.tail + 1 ≥ (db.entries.length : ℤ)
  · have : db.tail.toNat + 1 = db.entries.length := by omega
    rw [if_pos hc, this, Nat.mod_self]; rfl
  · have : db.tail.toNat + 1 < db.entries.length := by omega
    rw [if_neg hc, Nat.mod_eq_of_lt this]; omega

/-- The new tail index after `moveForward` stays in range. -/
theorem moveForward_tail_bounds (db : Db) (h0 : 0 ≤ db.tail)
    (h1 : db.tail < db.entries.length) :
    0 ≤ (moveForward db).tail ∧ (moveForward db).tail < db.entries.length := by
  rw [moveForward_tail_eq db h0 h1]
  have hL : 0 < db.entries.length := by omega
  have := Nat.mod_lt (db.tail.toNat + 1) hL
  omega

/-- The new head index after `moveForward` stays in range. -/
theorem moveForward_head_bounds (db : Db) (h0 : 0 ≤ db.head)
    (h1 : db.head < db.entries.length) :
    0 ≤ (moveForward db).head ∧ (moveForward db).head < db.entries.length := by
  simp only [moveForward]
  by_cases hc : (if db.tail + 1 ≥ (db.entries.length : ℤ) then 0 else db.tail + 1) = db.head
  · rw [if_pos hc]
    by_cases hc2 : db.head + 1 ≥ (db.entries.length : ℤ)
    · rw [if_pos hc2]; omega
    · rw [if_neg hc2]; omega
  · rw [if_neg hc]; omega

theorem stepZero_res (db : Db) : (stepZero db).res = db.res := rfl

theorem stepZero_lastEntry (db : Db) : (stepZero db).lastEntry = db.lastEntry := rfl

theorem stepZero_start (db : Db) : (stepZero db).currentStart = (moveForward db).currentStart := rfl

theorem stepZero_stop (db : Db) : (stepZero db).currentStop = (moveForward db).currentStop := rfl

theorem stepZero_tail (db : Db) : (stepZero db).tail = (moveForward db).tail := rfl

theorem stepZero_head (db : Db) : (stepZero db).head = (moveForward db).head := rfl

theorem stepZero_length (db : Db) : (stepZero db).entries.length = db.entries.length := by
  simp [stepZero, moveForward]

/-- The catch-up loop never touches the resolution, the last-entry time,
or the length of the entries list. -/
theorem catchUp_basic (t : ℤ) :
    ∀ (N : ℕ) (db : Db), (t - db.currentStop).toNat ≤ N →
      (catchUp db t).res = db.res ∧ (catchUp db t).lastEntry = db.lastEntry ∧
      (catchUp db t).entries.length = db.entries.length := by
  intro N
  induction N with
  | zero =>
      intro db hN
      have hg : ¬(1 ≤ db.res ∧ db.currentStop < t) := by omega
      rw [catchUp, dif_neg hg]
      exact ⟨rfl, rfl, rfl⟩
  | succ N ih =>
      intro db hN
      by_cases h : 1 ≤ db.res ∧ db.currentStop < t
      · rw [catchUp, dif_pos h]
        have hlt := moveForward_stop_lt db h.1
        have hm : (t - (stepZero db).currentStop).toNat ≤ N := by
          rw [stepZero_stop]; omega
        obtain ⟨h1, h2, h3⟩ := ih (stepZero db) hm
        refine ⟨by rw [h1, stepZero_res], by rw [h2, stepZero_lastEntry],
          by rw [h3, stepZero_length]⟩
      · rw [catchUp, dif_neg h]
        exact ⟨rfl, rfl, rfl⟩

theorem catchUp_res (db : Db) (t : ℤ) : (catchUp db t).res = db.res :=
  (catchUp_basic t _ db le_rfl).1

theorem catchUp_lastEntry (db : Db) (t : ℤ) : (catchUp db t).lastEntry = db.lastEntry :=
  (catchUp_basic t _ db le_rfl).2.1

theorem catchUp_length (db : Db) (t : ℤ) :
    (catchUp db t).entries.length = db.entries.length :=
  (catchUp_basic t _ db le_rfl).2.2

/-- Time behaviour of the catch-up loop: it stops as soon as the current
stop time is at least `t` (so `t ≤ currentStop` afterwards, with equality
possible when `t` sits exactly on a box boundary), and when it runs at
least once the final box also satisfies `currentStart ≤ t`, is aligned,
and spans exactly one resolution. -/
theorem catchUp_time (t : ℤ) :
    ∀ (N : ℕ) (db : Db), (t - db.currentStop).toNat ≤ N →
      1 ≤ db.res → 0 ≤ db.currentStop →
      t ≤ (catchUp db t).currentStop ∧
      0 ≤ (catchUp db t).currentStop ∧
      (db.currentStop < t →
        (catchUp db t).currentStart ≤ t ∧
        (catchUp db t).currentStop = (catchUp db t).currentStart + db.res ∧
        db.res ∣ (catchUp db t).currentStart ∧
        0 ≤ (catchUp db t).currentStart) := by
  intro N
  induction N with
  | zero =>
      intro db hN hres hstop
      have hg : ¬(1 ≤ db.res ∧ db.currentStop < t) := by omega
      rw [catchUp, dif_neg hg]
      exact ⟨by omega, hstop, by omega⟩
  | succ N ih =>
      intro db hN hres hstop
      by_cases h : 1 ≤ db.res ∧ db.currentStop < t
      · rw [catchUp, dif_pos h]
        have hlt := moveForward_stop_lt db h.1
        have hm : (t - (stepZero db).currentStop).toNat ≤ N := by
          rw [stepZero_stop]; omega
        have hres1 : 1 ≤ (stepZero db).res := by rw [stepZero_res]; exact hres
        have hstop1 : 0 ≤ (stepZero db).currentStop := by rw [stepZero_stop]; omega
        obtain ⟨h1, h2, h3⟩ := ih (stepZero db) hm hres1 hstop1
        refine ⟨h1, h2, fun _ => ?_⟩
        by_cases hlt1 : (stepZero db).currentStop < t
        · obtain ⟨c1, c2, c3, c4⟩ := h3 hlt1
          exact ⟨c1, by rw [c2, stepZero_res], by rw [← stepZero_res db]; exact c3, c4⟩
        · have hg1 : ¬(1 ≤ (stepZero db).res ∧ (stepZero db).currentStop < t) := by
            rw [stepZero_res]; omega
          rw [catchUp, dif_neg hg1]
          refine ⟨?_, ?_, ?_, ?_⟩
          · rw [stepZero_start]
            have := moveForward_start_le db hstop
            omega
          · rw [stepZero_stop, stepZero_start]
            exact moveForward_stop_eq db
          · rw [stepZero_start]
            exact moveForward_start_dvd db
          · rw [stepZero_start]
            exact boxTime_start_nonneg _ _ (by omega) (by omega)
      · rw [catchUp, dif_neg h]
        exact ⟨by omega, hstop, by omega⟩

theorem stepZero_entries (db : Db) (h0 : 0 ≤ db.tail) (h1 : db.tail < db.entries.length) :
    (stepZero db).entries =
      db.entries.set ((db.tail.toNat + 1) % db.entries.length) (GoFloat.fin 0) := by
  show ((moveForward db).entries.set (moveForward db).tail.toNat (GoFloat.fin 0)) = _
  rw [moveForward_entries, moveForward_tail_eq db h0 h1, Int.toNat_natCast]

/-- The catch-up loop keeps both ring indices in range. -/
theorem catchUp_idx (t : ℤ) :
    ∀ (N : ℕ) (db : Db), (t - db.currentStop).toNat ≤ N →
      0 ≤ db.tail → db.tail < db.entries.length →
      0 ≤ db.head → db.head < db.entries.length →
      0 ≤ (catchUp db t).tail ∧ (catchUp db t).tail < db.entries.length ∧
      0 ≤ (catchUp db t).head ∧ (catchUp db t).head < db.entries.length := by
  intro N
  induction N with
  | zero =>
      intro db hN ht0 ht1 hh0 hh1
      have hg : ¬(1 ≤ db.res ∧ db.currentStop < t) := by omega
      rw [catchUp, dif_neg hg]
      exact ⟨ht0, ht1, hh0, hh1⟩
  | succ N ih =>
      intro db hN ht0 ht1 hh0 hh1
      by_cases h : 1 ≤ db.res ∧ db.currentStop < t
      · rw [catchUp, dif_pos h]
        have hlt := moveForward_stop_lt db h.1
        have hm : (t - (stepZero db).currentStop).toNat ≤ N := by
          rw [stepZero_stop]; omega
        have hmt := moveForward_tail_bounds db ht0 ht1
        have hmh := moveForward_head_bounds db hh0 hh1
        have hL := stepZero_length db
        obtain ⟨c1, c2, c3, c4⟩ := ih (stepZero db)
          hm (by rw [stepZero_tail]; exact hmt.1) (by rw [stepZero_tail, hL]; exact hmt.2)
          (by rw [stepZero_head]; exact hmh.1) (by rw [stepZero_head, hL]; exact hmh.2)
        rw [hL] at c2 c4
        exact ⟨c1, c2, c3, c4⟩
      · rw [catchUp, dif_neg h]
        exact ⟨ht0, ht1, hh0, hh1⟩

/-- Entry contents after the catch-up loop: the loop performs
`catchUpN db t` ring advances; the tail ends `catchUpN db t` slots
further (mod capacity); every slot it passed over holds `0`; and every
slot it did not pass over is unchanged. -/
theorem catchUp_entries (t : ℤ) :
    ∀ (N : ℕ) (db : Db), (t - db.currentStop).toNat ≤ N →
      0 ≤ db.tail → db.tail < db.entries.length →
      (catchUp db t).tail =
        (((db.tail.toNat + catchUpN db t) % db.entries.length : ℕ) : ℤ) ∧
      (∀ i : ℕ, 1 ≤ i → i ≤ catchUpN db t →
        (catchUp db t).entries[(db.tail.toNat + i) % db.entries.length]? =
          some (GoFloat.fin 0)) ∧
      (∀ p : ℕ,
        (∀ i : ℕ, 1 ≤ i → i ≤ catchUpN db t →
          p ≠ (db.tail.toNat + i) % db.entries.length) →
        (catchUp db t).entries[p]? = db.entries[p]?) := by
  intro N
  induction N with
  | zero =>
      intro db hN ht0 ht1
      have hg : ¬(1 ≤ db.res ∧ db.currentStop < t) := by omega
      rw [catchUp, catchUpN, dif_neg hg, dif_neg hg]
      refine ⟨?_, ?_, fun p _ => rfl⟩
      · have : db.tail.toNat < db.entries.length := by omega
        rw [Nat.add_zero, Nat.mod_eq_of_lt this]
        omega
      · intro i hi1 hi2
        omega
  | succ N ih =>
      intro db hN ht0 ht1
      by_cases h : 1 ≤ db.res ∧ db.currentStop < t
      · have hL : 0 < db.entries.length := by omega
        have hlt := moveForward_stop_lt db h.1
        have hm : (t - (stepZero db).currentStop).toNat ≤ N := by
          rw [stepZero_stop]; omega
        have hmt := moveForward_tail_bounds db ht0 ht1
        have hLs := stepZero_length db
        have htl1 : (stepZero db).tail = (((db.tail.toNat + 1) % db.entries.length : ℕ) : ℤ) := by
          rw [stepZero_tail]; exact moveForward_tail_eq db ht0 ht1
        have htl1n : (stepZero db).tail.toNat = (db.tail.toNat + 1) % db.entries.length := by
          rw [htl1, Int.toNat_natCast]
        obtain ⟨c1, c2, c3⟩ := ih (stepZero db) hm
          (by rw [stepZero_tail]; exact hmt.1) (by rw [stepZero_tail, hLs]; exact hmt.2)
        rw [catchUp, catchUpN, dif_pos h, dif_pos h]
        have hT1lt : (db.tail.toNat + 1) % db.entries.length < db.entries.length :=
          Nat.mod_lt _ hL
        have hent := stepZero_entries db ht0 ht1
        refine ⟨?_, ?_, ?_⟩
        · rw [c1, htl1n, hLs, Nat.mod_add_mod]
          congr 2
          omega
        · intro i hi1 hi2
          rcases Nat.lt_or_ge i 2 with hi | hi
          · have hieq : i = 1 := by omega
            subst hieq
            by_cases hall : ∀ j : ℕ, 1 ≤ j → j ≤ catchUpN (stepZero db) t →
                (db.tail.toNat + 1) % db.entries.length ≠
                  ((stepZero db).tail.toNat + j) % (stepZero db).entries.length
            · have := c3 _ hall
              rw [this, hent, List.getElem?_set_self (by simpa using hT1lt)]
            · push_neg at hall
              obtain ⟨j, hj1, hj2, hj3⟩ := hall
              have := c2 j hj1 hj2
              rw [← hj3] at this
              exact this
          · have him : 1 ≤ i - 1 ∧ i - 1 ≤ catchUpN (stepZero db) t := by omega
            have := c2 (i - 1) him.1 him.2
            rw [htl1n, hLs, Nat.mod_add_mod] at this
            have harg : db.tail.toNat + 1 + (i - 1) = db.tail.toNat + i := by omega
            rw [harg] at this
            exact this
        · intro p hp
          have hp1 : p ≠ (db.tail.toNat + 1) % db.entries.length := by
            have := hp 1 le_rfl (by omega)
            simpa using this
          have hall : ∀ j : ℕ, 1 ≤ j → j ≤ catchUpN (stepZero db) t →
              p ≠ ((stepZero db).tail.toNat + j) % (stepZero db).entries.length := by
            intro j hj1 hj2
            rw [htl1n, hLs, Nat.mod_add_mod]
            have harg : db.tail.toNat + 1 + j = db.tail.toNat + (j + 1) := by omega
            rw [harg]
            exact hp (j + 1) (by omega) (by omega)
          have := c3 p hall
          rw [this, hent, List.getElem?_set_ne hp1.symm]
      · rw [catchUp, catchUpN, dif_neg h, dif_neg h]
        refine ⟨?_, ?_, fun p _ => rfl⟩
        · have : db.tail.toNat < db.entries.length := by omega
          rw [Nat.add_zero, Nat.mod_eq_of_lt this]
          omega
        · intro i hi1 hi2
          omega

/-- `AddAt` on an empty store: first-entry branch of db.go. -/
theorem addAt_empty_eq (db : Db) (v : GoFloat) (t : ℤ) (h : db.tail = -1) :
    AddAt db v t =
      { db with
        tail := 0
        head := 0
        entries := db.entries.set 0 v
        currentStart := (BoxTime t db.res).1
        currentStop := (BoxTime t db.res).2
        lastEntry := t } := by
  simp only [AddAt]
  rw [if_pos h]

/-- `AddAt` with an out-of-order timestamp: the store is returned as-is. -/
theorem addAt_reject_eq (db : Db) (v : GoFloat) (t : ℤ)
    (h1 : ¬db.tail = -1) (h2 : t < db.lastEntry) :
    AddAt db v t = db := by
  simp only [AddAt]
  rw [if_neg h1, if_pos h2]

/-- `AddAt` inside the current timebox: weighted-consolidation branch. -/
theorem addAt_sameBox_eq (db : Db) (v : GoFloat) (t : ℤ)
    (h1 : ¬db.tail = -1) (h2 : db.lastEntry ≤ t) (h3 : t < db.currentStop) :
    AddAt db v t =
      { db with
        entries := db.entries.set db.tail.toNat
          ((db.entries.getD db.tail.toNat (GoFloat.fin 0) *
              GoFloat.fin ((db.lastEntry - db.currentStart : ℤ) : ℚ) +
            v * GoFloat.fin ((t - db.lastEntry : ℤ) : ℚ)) /
           (GoFloat.fin ((db.lastEntry - db.currentStart : ℤ) : ℚ) +
            GoFloat.fin ((t - db.lastEntry : ℤ) : ℚ)))
        lastEntry := t } := by
  simp only [AddAt]
  rw [if_neg h1, if_neg (not_lt.mpr h2), if_pos h3]

/-- `AddAt` exactly one timebox forward: finalize, advance once, seed. -/
theorem addAt_oneBox_eq (db : Db) (v : GoFloat) (t : ℤ)
    (h1 : ¬db.tail = -1) (h2 : db.lastEntry ≤ t)
    (h3 : db.currentStop ≤ t) (h4 : t < db.currentStop + db.res) :
    AddAt db v t =
      (let newval := (db.entries.getD db.tail.toNat (GoFloat.fin 0) *
              GoFloat.fin ((db.lastEntry - db.currentStart : ℤ) : ℚ) +
            v * GoFloat.fin ((db.currentStop - db.lastEntry : ℤ) : ℚ)) /
           (GoFloat.fin ((db.lastEntry - db.currentStart : ℤ) : ℚ) +
            GoFloat.fin ((db.currentStop - db.lastEntry : ℤ) : ℚ))
       let db2 := moveForward { db with entries := db.entries.set db.tail.toNat newval }
       { db2 with entries := db2.entries.set db2.tail.toNat v, lastEntry := t }) := by
  simp only [AddAt]
  rw [if_neg h1, if_neg (not_lt.mpr h2), if_neg (not_lt.mpr h3), if_pos h4]

/-- `AddAt` more than one timebox forward: catch up with zeros, seed. -/
theorem addAt_multiBox_eq (db : Db) (v : GoFloat) (t : ℤ)
    (h1 : ¬db.tail = -1) (h2 : db.lastEntry ≤ t)
    (h3 : db.currentStop ≤ t) (h4 : db.currentStop + db.res ≤ t) :
    AddAt db v t =
      { catchUp db t with
        entries := (catchUp db t).entries.set (catchUp db t).tail.toNat v
        lastEntry := t } := by
  simp only [AddAt]
  rw [if_neg h1, if_neg (not_lt.mpr h2), if_neg (not_lt.mpr h3), if_neg (not_lt.mpr h4)]

/-- Every branch of `AddAt` keeps the resolution. -/
theorem addAt_res (db : Db) (v : GoFloat) (t : ℤ) : (AddAt db v t).res = db.res := by
  simp only [AddAt]
  split_ifs <;> first | rfl | exact catchUp_res db t

/-- Every branch of `AddAt` keeps the capacity. -/
theorem addAt_length (db : Db) (v : GoFloat) (t : ℤ) :
    (AddAt db v t).entries.length = db.entries.length := by
  simp only [AddAt]
  split_ifs <;> simp [moveForward, catchUp_length]

/-- Index well-formedness of the one-box-forward result, for any
finalized value `w`. -/
theorem InvIdx_oneBox_helper (db : Db) (w v : GoFloat) (t : ℤ)
    (ht0 : 0 ≤ db.tail) (ht1 : db.tail < db.entries.length)
    (hh0 : 0 ≤ db.head) (hh1 : db.head < db.entries.length) :
    InvIdx
      (let db2 := moveForward { db with entries := db.entries.set db.tail.toNat w }
       { db2 with entries := db2.entries.set db2.tail.toNat v, lastEntry := t }) := by
  have hmtb := moveForward_tail_bounds
    { db with entries := db.entries.set db.tail.toNat w }
    (by simpa using ht0) (by simpa using ht1)
  have hmhb := moveForward_head_bounds
    { db with entries := db.entries.set db.tail.toNat w }
    (by simpa using hh0) (by simpa using hh1)
  right
  simp only [List.length_set, moveForward_entries] at hmtb hmhb ⊢
  exact ⟨hmtb.1, hmtb.2, hmhb.1, hmhb.2⟩

/-- `AddAt` preserves index well-formedness (any resolution, any
timestamp) as long as the capacity is positive. -/
theorem addAt_InvIdx (db : Db) (v : GoFloat) (t : ℤ)
    (hcap : 1 ≤ db.entries.length) (hI : InvIdx db) : InvIdx (AddAt db v t) := by
  by_cases h1 : db.tail = -1
  · rw [addAt_empty_eq db v t h1]
    right
    simp only [List.length_set]
    omega
  · have hB : 0 ≤ db.tail ∧ db.tail < db.entries.length ∧
        0 ≤ db.head ∧ db.head < db.entries.length := by
      rcases hI with h | h
      · exact absurd h.1 h1
      · exact h
    by_cases h2 : t < db.lastEntry
    · rw [addAt_reject_eq db v t h1 h2]
      exact hI
    · have h2' : db.lastEntry ≤ t := by omega
      by_cases h3 : t < db.currentStop
      · rw [addAt_sameBox_eq db v t h1 h2' h3]
        right
        simp only [List.length_set]
        exact hB
      · have h3' : db.currentStop ≤ t := by omega
        by_cases h4 : t < db.currentStop + db.res
        · rw [addAt_oneBox_eq db v t h1 h2' h3' h4]
          exact InvIdx_oneBox_helper db _ v t hB.1 hB.2.1 hB.2.2.1 hB.2.2.2
        · have h4' : db.currentStop + db.res ≤ t := by omega
          rw [addAt_multiBox_eq db v t h1 h2' h3' h4']
          right
          have hcu := catchUp_idx t _ db le_rfl hB.1 hB.2.1 hB.2.2.1 hB.2.2.2
          simp only [List.length_set, catchUp_length]
          exact hcu

/-- Time well-formedness of the one-box-forward result, for any
finalized value `w`. -/
theorem InvT_oneBox_helper (db : Db) (w v : GoFloat) (t : ℤ)
    (hres : 2 ≤ db.res) (hs0 : 0 ≤ db.currentStart)
    (hs1 : db.currentStart ≤ db.lastEntry) (hs2 : db.lastEntry ≤ db.currentStop)
    (hs3 : db.currentStop = db.currentStart + db.res)
    (hs4 : db.res ∣ db.currentStart)
    (h3' : db.currentStop ≤ t) (h4 : t < db.currentStop + db.res) :
    InvT
      (let db2 := moveForward { db with entries := db.entries.set db.tail.toNat w }
       { db2 with entries := db2.entries.set db2.tail.toNat v, lastEntry := t }) := by
  have hstart : (moveForward { db with entries := db.entries.set db.tail.toNat w }).currentStart
      = db.currentStop := by
    apply moveForward_adjacent _ hres (show (0:ℤ) ≤ db.currentStop by omega)
    show db.res ∣ db.currentStop
    rcases hs4 with ⟨k, hk⟩
    exact ⟨k + 1, by rw [hs3, hk]; ring⟩
  have hstop := moveForward_stop_eq { db with entries := db.entries.set db.tail.toNat w }
  have hdvd := moveForward_start_dvd { db with entries := db.entries.set db.tail.toNat w }
  right
  refine ⟨?_, ?_, ?_, ?_, ?_⟩
  · show 0 ≤ (moveForward { db with entries := db.entries.set db.tail.toNat w }).currentStart
    omega
  · show (moveForward { db with entries := db.entries.set db.tail.toNat w }).currentStart ≤ t
    omega
  · show t ≤ (moveForward { db with entries := db.entries.set db.tail.toNat w }).currentStop
    rw [hstop]
    show t ≤ (moveForward { db with entries := db.entries.set db.tail.toNat w }).currentStart + db.res
    omega
  · show (moveForward { db with entries := db.entries.set db.tail.toNat w }).currentStop
      = (moveForward { db with entries := db.entries.set db.tail.toNat w }).currentStart + db.res
    exact hstop
  · show db.res ∣ (moveForward { db with entries := db.entries.set db.tail.toNat w }).currentStart
    exact hdvd

/-- `AddAt` preserves time well-formedness when the resolution is at
least 2 and the timestamp nonnegative. -/
theorem addAt_InvT (db : Db) (v : GoFloat) (t : ℤ)
    (hres : 2 ≤ db.res) (ht : 0 ≤ t) (hI : InvT db) : InvT (AddAt db v t) := by
  by_cases h1 : db.tail = -1
  · rw [addAt_empty_eq db v t h1]
    right
    refine ⟨boxTime_start_nonneg t db.res ht (by omega),
      boxTime_start_le t db.res ht, le_of_lt (boxTime_lt_stop t db.res (by omega)),
      boxTime_stop t db.res, boxTime_dvd t db.res⟩
  · have hT : 0 ≤ db.currentStart ∧ db.currentStart ≤ db.lastEntry ∧
        db.lastEntry ≤ db.currentStop ∧ db.currentStop = db.currentStart + db.res ∧
        db.res ∣ db.currentStart := by
      rcases hI with h | h
      · exact absurd h h1
      · exact h
    by_cases h2 : t < db.lastEntry
    · rw [addAt_reject_eq db v t h1 h2]
      exact hI
    · have h2' : db.lastEntry ≤ t := by omega
      by_cases h3 : t < db.currentStop
      · rw [addAt_sameBox_eq db v t h1 h2' h3]
        right
        exact ⟨hT.1, le_trans hT.2.1 h2', le_of_lt h3, hT.2.2.2.1, hT.2.2.2.2⟩
      · have h3' : db.currentStop ≤ t := by omega
        by_cases h4 : t < db.currentStop + db.res
        · rw [addAt_oneBox_eq db v t h1 h2' h3' h4]
          exact InvT_oneBox_helper db _ v t hres hT.1 hT.2.1 hT.2.2.1
            hT.2.2.2.1 hT.2.2.2.2 h3' h4
        · have h4' : db.currentStop + db.res ≤ t := by omega
          rw [addAt_multiBox_eq db v t h1 h2' h3' h4']
          right
          have hcu := catchUp_time t _ db le_rfl (by omega) (by omega)
          have hcond := hcu.2.2 (by omega)
          have hres' : (catchUp db t).res = db.res := catchUp_res db t
          refine ⟨hcond.2.2.2, ?_, ?_, ?_, ?_⟩
          · show (catchUp db t).currentStart ≤ t
            exact hcond.1
          · show t ≤ (catchUp db t).currentStop
            exact hcu.1
          · show (catchUp db t).currentStop = (catchUp db t).currentStart + (catchUp db t).res
            rw [hres']
            exact hcond.2.1
          · show (catchUp db t).res ∣ (catchUp db t).currentStart
            rw [hres']
            exact hcond.2.2.1

/-- A store with well-formed indices never reports a length above its
capacity. -/
theorem len_le_cap (db : Db) (hI : InvIdx db) : Len db ≤ (db.entries.length : ℤ) := by
  rcases hI with ⟨h1, _⟩ | ⟨h1, h2, h3, h4⟩
  · rw [Len, if_pos h1]
    omega
  · rw [Len, if_neg (by omega)]
    split_ifs <;> omega

/-- When a store is full, one ring advance keeps it full, moves the head
forward one slot (evicting the oldest bucket), and makes index 0 read
what index 1 read before. -/
theorem eviction_helper (db : Db)
    (ht0 : 0 ≤ db.tail) (ht1 : db.tail < db.entries.length)
    (hh0 : 0 ≤ db.head) (hh1 : db.head < db.entries.length)
    (hcap2 : 2 ≤ db.entries.length)
    (hfull : Len db = (db.entries.length : ℤ)) :
    Len (moveForward db) = (db.entries.length : ℤ) ∧
    (moveForward db).head = (((db.head.toNat + 1) % db.entries.length : ℕ) : ℤ) ∧
    Get (moveForward db) 0 = Get db 1 := by
  have hne : ¬db.tail = -1 := by omega
  rw [Len, if_neg hne] at hfull
  by_cases hht : db.head ≤ db.tail
  · rw [if_pos hht] at hfull
    -- full with no wraparound: head = 0, tail = capacity - 1
    have hh : db.head = 0 := by omega
    have ht : db.tail = (db.entries.length : ℤ) - 1 := by omega
    have htail' : (moveForward db).tail = 0 := by
      simp only [moveForward]
      split_ifs <;> omega
    have hhead' : (moveForward db).head = db.head + 1 := by
      simp only [moveForward]
      split_ifs <;> omega
    have hLen' : Len (moveForward db) = (db.entries.length : ℤ) := by
      rw [Len, htail', hhead', moveForward_entries, if_neg (by omega),
        if_neg (by omega)]
      omega
    refine ⟨hLen', ?_, ?_⟩
    · have hm : (db.head.toNat + 1) % db.entries.length = db.head.toNat + 1 :=
        Nat.mod_eq_of_lt (by omega)
      rw [hhead', hm]
      omega
    · rw [Get, Get, hLen', htail', hhead', moveForward_entries]
      rw [Len, if_neg hne, if_pos hht]
      rw [if_neg (by omega), if_neg (by omega), if_pos (by omega),
        if_neg (by omega), if_pos hht]
      congr 1
      omega
  · rw [if_neg hht] at hfull
    -- full with wraparound: head = tail + 1
    have hh : db.head = db.tail + 1 := by omega
    have htail' : (moveForward db).tail = db.tail + 1 := by
      simp only [moveForward]
      split_ifs <;> omega
    by_cases hB : db.head + 1 ≥ (db.entries.length : ℤ)
    · -- head wraps to 0
      have hhead' : (moveForward db).head = 0 := by
        simp only [moveForward]
        split_ifs <;> omega
      have hLen' : Len (moveForward db) = (db.entries.length : ℤ) := by
        rw [Len, htail', hhead', moveForward_entries, if_neg (by omega),
          if_pos (by omega)]
        omega
      refine ⟨hLen', ?_, ?_⟩
      · have hm : db.head.toNat + 1 = db.entries.length := by omega
        rw [hhead', hm, Nat.mod_self]
        omega
      · rw [Get, Get, hLen', htail', hhead', moveForward_entries]
        rw [Len, if_neg hne, if_neg hht]
        rw [if_neg (by omega), if_pos (by omega),
          if_neg (by omega), if_neg hht, if_neg (by omega)]
        congr 1
        omega
    · -- head advances without wrapping
      have hhead' : (moveForward db).head = db.head + 1 := by
        simp only [moveForward]
        split_ifs <;> omega
      have hLen' : Len (moveForward db) = (db.entries.length : ℤ) := by
        rw [Len, htail', hhead', moveForward_entries, if_neg (by omega),
          if_neg (by omega)]
        omega
      refine ⟨hLen', ?_, ?_⟩
      · have hm : (db.head.toNat + 1) % db.entries.length = db.head.toNat + 1 :=
          Nat.mod_eq_of_lt (by omega)
        rw [hhead', hm]
        omega
      · rw [Get, Get, hLen', htail', hhead', moveForward_entries]
        rw [Len, if_neg hne, if_neg hht]
        rw [if_neg (by omega), if_neg (by omega), if_pos (by omega),
          if_neg (by omega), if_neg hht, if_pos (by omega)]
        congr 1
        omega

/-- Every reachable store has the declared capacity and well-formed
indices. -/
theorem reachable_InvIdx (res : ℤ) (cap : ℕ) (db : Db) (hcap : 1 ≤ cap)
    (h : Reachable res cap db) : db.entries.length = cap ∧ InvIdx db := by
  induction h with
  | base =>
      refine ⟨by simp [New], Or.inl ⟨rfl, rfl⟩⟩
  | step db' v t _ ih =>
      refine ⟨by rw [addAt_length, ih.1], addAt_InvIdx db' v t (by omega) ih.2⟩

/-- Every store reachable with nonnegative timestamps and resolution at
least 2 is time well-formed. -/
theorem reachableNN_InvT (res : ℤ) (cap : ℕ) (db : Db) (hres : 2 ≤ res)
    (h : ReachableNN res cap db) : db.res = res ∧ InvT db := by
  induction h with
  | base => exact ⟨rfl, Or.inl rfl⟩
  | step db' v t _ ht ih =>
      exact ⟨by rw [addAt_res, ih.1],
        addAt_InvT db' v t (by rw [ih.1]; exact hres) ht ih.2⟩

/-! ## Claim theorems -/

/-- C3 (amended): for every timestamp at or after the Unix epoch and
every resolution ≥ 1, `BoxTime` totally returns `start = r * (t / r)` —
the greatest multiple of the resolution at most `t` — and
`stop = start + r`, so `start ≤ t < stop`.  The original claim ranges
over every representable timestamp, but Go's `%` truncates toward zero,
so for pre-epoch (negative) timestamps the start lies above `t`; see
`boxTime_pre_epoch_cex`. -/
theorem boxTime_spec (t r : ℤ) (ht : 0 ≤ t) (hr : 1 ≤ r) :
    (BoxTime t r).1 = r * (t / r) ∧
    (BoxTime t r).2 = (BoxTime t r).1 + r ∧
    r ∣ (BoxTime t r).1 ∧
    (BoxTime t r).1 ≤ t ∧ t < (BoxTime t r).2 :=
  ⟨boxTime_start_eq t r ht (by omega), boxTime_stop t r, boxTime_dvd t r,
   boxTime_start_le t r ht, boxTime_lt_stop t r (by omega)⟩

/-- Witness for C3 at `t = 65`, `r = 30`: the box is `[60, 90)`. -/
theorem boxTime_spec_witness :
    (0:ℤ) ≤ 65 ∧ (1:ℤ) ≤ 30 ∧
    ((BoxTime 65 30).1 = 30 * (65 / 30) ∧
     (BoxTime 65 30).2 = (BoxTime 65 30).1 + 30 ∧
     (30:ℤ) ∣ (BoxTime 65 30).1 ∧
     (BoxTime 65 30).1 ≤ 65 ∧ (65:ℤ) < (BoxTime 65 30).2) :=
  ⟨by decide, by decide, boxTime_spec 65 30 (by decide) (by decide)⟩

/-- C3 counterexample: at the pre-epoch timestamp −5 with resolution 30,
`BoxTime` returns start 0, which is neither ≤ −5 nor the greatest
multiple of 30 at most −5 (that would be −30). -/
theorem boxTime_pre_epoch_cex :
    (BoxTime (-5) 30).1 = 0 ∧ ¬((BoxTime (-5) 30).1 ≤ -5) ∧
    (BoxTime (-5) 30).1 ≠ -30 := by
  decide

/-- C4: for every non-empty store and insertion with
`lastEntry ≤ t < currentStop` (same-bucket case), the bucket at `tail`
becomes `(oldValue*priorWeight + v*newWeight) / (priorWeight + newWeight)`
with `priorWeight = lastEntry - currentStart` and
`newWeight = t - lastEntry` (seconds), `lastEntry` becomes `t`, and
nothing else — head, tail, currentStart, currentStop, the other buckets —
changes (the result is exactly the record update shown). -/
theorem addAt_sameBox_spec (db : Db) (v : GoFloat) (t : ℤ)
    (h1 : db.tail ≠ -1) (h2 : db.lastEntry ≤ t) (h3 : t < db.currentStop) :
    AddAt db v t =
      { db with
        entries := db.entries.set db.tail.toNat
          ((db.entries.getD db.tail.toNat (GoFloat.fin 0) *
              GoFloat.fin ((db.lastEntry - db.currentStart : ℤ) : ℚ) +
            v * GoFloat.fin ((t - db.lastEntry : ℤ) : ℚ)) /
           (GoFloat.fin ((db.lastEntry - db.currentStart : ℤ) : ℚ) +
            GoFloat.fin ((t - db.lastEntry : ℤ) : ℚ)))
        lastEntry := t } :=
  addAt_sameBox_eq db v t h1 h2 h3

/-- Witness for C4 on a concrete store: bucket value 4 held 5 seconds,
new value 10 held 15 seconds, consolidated mean (4·5+10·15)/20. -/
theorem addAt_sameBox_spec_witness :
    (let W : Db := { res := 30, entries := [GoFloat.fin 4], head := 0, tail := 0,
                     currentStart := 0, currentStop := 30, lastEntry := 5 }
     W.tail ≠ -1 ∧ W.lastEntry ≤ 20 ∧ (20:ℤ) < W.currentStop ∧
     AddAt W (GoFloat.fin 10) 20 =
       { W with
         entries := W.entries.set W.tail.toNat
           ((W.entries.getD W.tail.toNat (GoFloat.fin 0) *
               GoFloat.fin ((W.lastEntry - W.currentStart : ℤ) : ℚ) +
             GoFloat.fin 10 * GoFloat.fin ((20 - W.lastEntry : ℤ) : ℚ)) /
            (GoFloat.fin ((W.lastEntry - W.currentStart : ℤ) : ℚ) +
             GoFloat.fin ((20 - W.lastEntry : ℤ) : ℚ)))
         lastEntry := 20 }) :=
  ⟨by decide, by decide, by decide,
   addAt_sameBox_spec _ (GoFloat.fin 10) 20 (by decide) (by decide) (by decide)⟩

/-- C5: for every non-empty store and insertion with
`currentStop ≤ t < currentStop + resolution` (exactly one bucket
forward), the old tail bucket is first finalized with the weighted-mean
formula using `newWeight = currentStop - lastEntry`, then the ring
advances exactly one position (`moveForward`), the new tail bucket is
set to `v` directly with no averaging, and `lastEntry` becomes `t`. -/
theorem addAt_oneBox_spec (db : Db) (v : GoFloat) (t : ℤ)
    (h1 : db.tail ≠ -1) (h2 : db.lastEntry ≤ t)
    (h3 : db.currentStop ≤ t) (h4 : t < db.currentStop + db.res) :
    AddAt db v t =
      (let newval := (db.entries.getD db.tail.toNat (GoFloat.fin 0) *
              GoFloat.fin ((db.lastEntry - db.currentStart : ℤ) : ℚ) +
            v * GoFloat.fin ((db.currentStop - db.lastEntry : ℤ) : ℚ)) /
           (GoFloat.fin ((db.lastEntry - db.currentStart : ℤ) : ℚ) +
            GoFloat.fin ((db.currentStop - db.lastEntry : ℤ) : ℚ))
       let db2 := moveForward { db with entries := db.entries.set db.tail.toNat newval }
       { db2 with entries := db2.entries.set db2.tail.toNat v, lastEntry := t }) :=
  addAt_oneBox_eq db v t h1 h2 h3 h4

/-- Witness for C5 on a concrete store: box `[0,30)` finalized with
`newWeight = 30 − 5 = 25`, ring advanced once, new box seeded with 10. -/
theorem addAt_oneBox_spec_witness :
    (let W : Db := { res := 30, entries := [GoFloat.fin 4, GoFloat.fin 0], head := 0, tail := 0,
                     currentStart := 0, currentStop := 30, lastEntry := 5 }
     W.tail ≠ -1 ∧ W.lastEntry ≤ 40 ∧ W.currentStop ≤ 40 ∧ (40:ℤ) < W.currentStop + W.res ∧
     AddAt W (GoFloat.fin 10) 40 =
       (let newval := (W.entries.getD W.tail.toNat (GoFloat.fin 0) *
               GoFloat.fin ((W.lastEntry - W.currentStart : ℤ) : ℚ) +
             GoFloat.fin 10 * GoFloat.fin ((W.currentStop - W.lastEntry : ℤ) : ℚ)) /
            (GoFloat.fin ((W.lastEntry - W.currentStart : ℤ) : ℚ) +
             GoFloat.fin ((W.currentStop - W.lastEntry : ℤ) : ℚ))
        let db2 := moveForward { W with entries := W.entries.set W.tail.toNat newval }
        { db2 with entries := db2.entries.set db2.tail.toNat (GoFloat.fin 10), lastEntry := 40 })) :=
  ⟨by decide, by decide, by decide, by decide,
   addAt_oneBox_spec _ (GoFloat.fin 10) 40 (by decide) (by decide) (by decide) (by decide)⟩

/-- C6: for every non-empty store, inserting a timestamp earlier than
`lastEntry` is rejected without crashing and the entire store state is
returned completely unchanged — no partial mutation occurs (`AddAt`
returns the store itself). -/
theorem addAt_reject_spec (db : Db) (v : GoFloat) (t : ℤ)
    (h1 : db.tail ≠ -1) (h2 : t < db.lastEntry) :
    AddAt db v t = db :=
  addAt_reject_eq db v t h1 h2

/-- Witness for C6 on a concrete store. -/
theorem addAt_reject_spec_witness :
    (let W : Db := { res := 5, entries := [GoFloat.fin 1, GoFloat.fin 2], head := 0, tail := 1,
                     currentStart := 10, currentStop := 15, lastEntry := 12 }
     W.tail ≠ -1 ∧ (4:ℤ) < W.lastEntry ∧ AddAt W (GoFloat.fin 9) 4 = W) :=
  ⟨by decide, by decide, addAt_reject_spec _ (GoFloat.fin 9) 4 (by decide) (by decide)⟩

/-- C1 (amended): for every non-empty well-formed store whose current
box lies at or after the Unix epoch (`0 ≤ currentStop`, as in every
store built by at-or-after-epoch insertions, cf. C2/C3) and every
insertion with `t ≥ currentStop + resolution` (the multi-box gap case),
`AddAt` repeatedly advances the ring — `catchUpN db t ≥ 1` advances —
filling each newly created intermediate ring slot with 0, until the
current bucket's stop time is **at least** `t`, so that afterwards
`currentStart ≤ t ≤ currentStop`; the final (current) bucket then holds
`v` directly and `lastEntry = t`.  Ring slots not passed over are
unchanged.  The original claim's "until the stop time exceeds `t` (so
`t` lies strictly inside the final bucket)" fails when `t` sits exactly
on a box boundary: the loop stops with `currentStop = t`; see
`addAt_multiBox_boundary_cex`.  The epoch restriction is forced by the
same truncating-`%` skew behind `boxTime_pre_epoch_cex`: from a
pre-epoch box such as `[-150,-120)` with resolution 30, the loop's
realignment of `currentStop + 1` jumps `[-90,-60)` to `[-30,0)`, so an
insert at `t = -45` ends with `currentStart = -30 > t` and even the
relaxed `currentStart ≤ t` fails. -/
theorem addAt_multiBox_spec (db : Db) (v : GoFloat) (t : ℤ)
    (h2 : db.lastEntry ≤ t) (h4 : db.currentStop + db.res ≤ t)
    (hres : 1 ≤ db.res) (hstop : 0 ≤ db.currentStop)
    (ht0 : 0 ≤ db.tail) (ht1 : db.tail < db.entries.length) :
    1 ≤ catchUpN db t ∧
    (AddAt db v t).lastEntry = t ∧
    (AddAt db v t).currentStart ≤ t ∧
    t ≤ (AddAt db v t).currentStop ∧
    (AddAt db v t).tail =
      (((db.tail.toNat + catchUpN db t) % db.entries.length : ℕ) : ℤ) ∧
    (AddAt db v t).entries[(db.tail.toNat + catchUpN db t) % db.entries.length]? =
      some v ∧
    (∀ i : ℕ, 1 ≤ i → i < catchUpN db t →
      (db.tail.toNat + i) % db.entries.length ≠
        (db.tail.toNat + catchUpN db t) % db.entries.length →
      (AddAt db v t).entries[(db.tail.toNat + i) % db.entries.length]? =
        some (GoFloat.fin 0)) ∧
    (∀ p : ℕ,
      (∀ i : ℕ, 1 ≤ i → i ≤ catchUpN db t →
        p ≠ (db.tail.toNat + i) % db.entries.length) →
      (AddAt db v t).entries[p]? = db.entries[p]?) := by
  have h1 : ¬db.tail = -1 := by omega
  have h3 : db.currentStop ≤ t := by omega
  have heq := addAt_multiBox_eq db v t h1 h2 h3 h4
  have hN1 : 1 ≤ catchUpN db t := by
    rw [catchUpN, dif_pos ⟨hres, by omega⟩]
    omega
  have hct := catchUp_time t _ db le_rfl hres hstop
  have hce := catchUp_entries t _ db le_rfl ht0 ht1
  have hcond := hct.2.2 (by omega)
  have hL : 0 < db.entries.length := by omega
  have htl : (catchUp db t).tail.toNat =
      (db.tail.toNat + catchUpN db t) % db.entries.length := by
    rw [hce.1, Int.toNat_natCast]
  rw [heq]
  refine ⟨hN1, rfl, hcond.1, hct.1, hce.1, ?_, ?_, ?_⟩
  · show ((catchUp db t).entries.set (catchUp db t).tail.toNat
        v)[(db.tail.toNat + catchUpN db t) % db.entries.length]? = some v
    rw [htl]
    exact List.getElem?_set_self (by rw [catchUp_length]; exact Nat.mod_lt _ hL)
  · intro i hi1 hi2 hne
    show ((catchUp db t).entries.set (catchUp db t).tail.toNat
        v)[(db.tail.toNat + i) % db.entries.length]? = some (GoFloat.fin 0)
    rw [htl, List.getElem?_set_ne hne.symm]
    exact hce.2.1 i hi1 (by omega)
  · intro p hp
    have hpn : p ≠ (db.tail.toNat + catchUpN db t) % db.entries.length :=
      hp _ hN1 le_rfl
    show ((catchUp db t).entries.set (catchUp db t).tail.toNat v)[p]? = db.entries[p]?
    rw [htl, List.getElem?_set_ne (Ne.symm hpn)]
    exact hce.2.2 p hp

/-- Witness for C1 on a concrete store (resolution 30, capacity 3,
current box `[0,30)`, insertion at `t = 100`): three advances happen and
the final bucket holds the inserted value. -/
theorem addAt_multiBox_spec_witness :
    (let W : Db := { res := 30, entries := [GoFloat.fin 5, GoFloat.fin 1, GoFloat.fin 2],
                     head := 0, tail := 0, currentStart := 0, currentStop := 30, lastEntry := 5 }
     W.lastEntry ≤ 100 ∧ W.currentStop + W.res ≤ 100 ∧ (1:ℤ) ≤ W.res ∧
     (0:ℤ) ≤ W.currentStop ∧ (0:ℤ) ≤ W.tail ∧ W.tail < W.entries.length ∧
     (1 ≤ catchUpN W 100 ∧
      (AddAt W (GoFloat.fin 7) 100).lastEntry = 100 ∧
      (AddAt W (GoFloat.fin 7) 100).currentStart ≤ 100 ∧
      (100:ℤ) ≤ (AddAt W (GoFloat.fin 7) 100).currentStop ∧
      (AddAt W (GoFloat.fin 7) 100).tail =
        (((W.tail.toNat + catchUpN W 100) % W.entries.length : ℕ) : ℤ) ∧
      (AddAt W (GoFloat.fin 7) 100).entries[(W.tail.toNat + catchUpN W 100) %
          W.entries.length]? = some (GoFloat.fin 7))) := by
  dsimp only
  refine ⟨by decide, by decide, by decide, by decide, by decide, by decide, ?_⟩
  have h := addAt_multiBox_spec
    { res := 30, entries := [GoFloat.fin 5, GoFloat.fin 1, GoFloat.fin 2],
      head := 0, tail := 0, currentStart := 0, currentStop := 30, lastEntry := 5 }
    (GoFloat.fin 7) 100 (by decide) (by decide) (by decide) (by decide)
    (by decide) (by decide)
  exact ⟨h.1, h.2.1, h.2.2.1, h.2.2.2.1, h.2.2.2.2.1, h.2.2.2.2.2.1⟩

/-- C1 counterexample: after a store with current box `[0,10)` receives
a sample at `t = 20` (a multi-box gap landing exactly on a box
boundary), the final `currentStop` equals 20, so it does not exceed `t`
and `t` is not strictly inside the final half-open bucket. -/
theorem addAt_multiBox_boundary_cex :
    (AddAt (AddAt (New 10 4) (GoFloat.fin 1) 0) (GoFloat.fin 2) 20).currentStop = 20 ∧
    ¬(20 < (AddAt (AddAt (New 10 4) (GoFloat.fin 1) 0) (GoFloat.fin 2) 20).currentStop) := by
  rw [addAt_multiBox_eq _ _ _ (by decide) (by decide) (by decide) (by decide)]
  rw [show catchUp (AddAt (New 10 4) (GoFloat.fin 1) 0) 20 =
        stepZero (AddAt (New 10 4) (GoFloat.fin 1) 0) from by
      rw [catchUp, dif_pos (by decide), catchUp, dif_neg (by decide)]]
  exact ⟨by decide, by decide⟩

/-- C2 (amended): every store reachable from `New(res, cap)` with
resolution at least 2 by `AddAt` insertions with timestamps at or after
the epoch satisfies, whenever non-empty,
`currentStart ≤ lastEntry ≤ currentStop` and
`currentStop - currentStart = res`: every such insertion preserves this
invariant.  The original strict `lastEntry < currentStop` fails when a
sample lands exactly on a box boundary two or more boxes ahead
(`store_time_invariant_cex`); `currentStart ≤ lastEntry` moreover needs
resolution ≥ 2 (with resolution 1, `moveForward` skips past the adjacent
box, putting `currentStart` above `lastEntry`) and nonnegative
timestamps (pre-epoch alignment places `currentStart` above `t`, cf.
`boxTime_pre_epoch_cex`). -/
theorem store_time_invariant (res : ℤ) (cap : ℕ) (db : Db) (hres : 2 ≤ res)
    (h : ReachableNN res cap db) (hne : db.tail ≠ -1) :
    db.currentStart ≤ db.lastEntry ∧ db.lastEntry ≤ db.currentStop ∧
    db.currentStop - db.currentStart = res := by
  obtain ⟨hr, hI⟩ := reachableNN_InvT res cap db hres h
  rcases hI with h1 | h1
  · exact absurd h1 hne
  · refine ⟨h1.2.1, h1.2.2.1, ?_⟩
    have h2 := h1.2.2.2.1
    rw [hr] at h2
    omega

/-- Witness for C2: one nonnegative-timestamp insertion into a fresh
store with resolution 30. -/
theorem store_time_invariant_witness :
    (2:ℤ) ≤ 30 ∧ (AddAt (New 30 5) (GoFloat.fin 3) 7).tail ≠ -1 ∧
    ((AddAt (New 30 5) (GoFloat.fin 3) 7).currentStart ≤
        (AddAt (New 30 5) (GoFloat.fin 3) 7).lastEntry ∧
     (AddAt (New 30 5) (GoFloat.fin 3) 7).lastEntry ≤
        (AddAt (New 30 5) (GoFloat.fin 3) 7).currentStop ∧
     (AddAt (New 30 5) (GoFloat.fin 3) 7).currentStop -
        (AddAt (New 30 5) (GoFloat.fin 3) 7).currentStart = 30) :=
  ⟨by decide, by decide,
   store_time_invariant 30 5 _ (by decide)
     (ReachableNN.step (New 30 5) (GoFloat.fin 3) 7 ReachableNN.base (by decide))
     (by decide)⟩

/-- C2 counterexample: starting from a fresh store with resolution 30
and a sample at `t = 0`, inserting at `t = 60` (exactly two box widths
later, on a box boundary) leaves a non-empty store whose `lastEntry`
*equals* `currentStop`, contradicting the claimed strict
`lastEntry < currentStop`. -/
theorem store_time_invariant_cex :
    (AddAt (AddAt (New 30 5) (GoFloat.fin 1) 0) (GoFloat.fin 2) 60).tail ≠ -1 ∧
    (AddAt (AddAt (New 30 5) (GoFloat.fin 1) 0) (GoFloat.fin 2) 60).lastEntry =
      (AddAt (AddAt (New 30 5) (GoFloat.fin 1) 0) (GoFloat.fin 2) 60).currentStop := by
  rw [addAt_multiBox_eq _ _ _ (by decide) (by decide) (by decide) (by decide)]
  rw [show catchUp (AddAt (New 30 5) (GoFloat.fin 1) 0) 60 =
        stepZero (AddAt (New 30 5) (GoFloat.fin 1) 0) from by
      rw [catchUp, dif_pos (by decide), catchUp, dif_neg (by decide)]]
  exact ⟨by decide, by decide⟩

/-- C7: for every store reachable from `New(res, cap)` with positive
capacity, `Len` never exceeds the capacity; and once `Len` equals the
capacity (at least 2, so that a next-oldest bucket exists), each further
ring advance (`moveForward`) evicts the oldest bucket — the head moves
one slot forward (mod capacity) — `Len` stays at the capacity, and
`Get 0` afterwards returns what `Get 1` returned before (the previously
next-oldest bucket, not the evicted oldest one). -/
theorem len_capacity_eviction (res : ℤ) (cap : ℕ) (db : Db) (hcap : 1 ≤ cap)
    (hr : Reachable res cap db) :
    Len db ≤ (cap : ℤ) ∧
    (Len db = (cap : ℤ) → 2 ≤ cap →
      Len (moveForward db) = (cap : ℤ) ∧
      (moveForward db).head = (((db.head.toNat + 1) % cap : ℕ) : ℤ) ∧
      Get (moveForward db) 0 = Get db 1) := by
  obtain ⟨hlen, hI⟩ := reachable_InvIdx res cap db hcap hr
  constructor
  · have h := len_le_cap db hI
    rw [hlen] at h
    exact h
  · intro hfull hcap2
    have hB : 0 ≤ db.tail ∧ db.tail < db.entries.length ∧
        0 ≤ db.head ∧ db.head < db.entries.length := by
      rcases hI with ⟨hemp, _⟩ | hB
      · rw [Len, if_pos hemp] at hfull
        omega
      · exact hB
    have h := eviction_helper db hB.1 hB.2.1 hB.2.2.1 hB.2.2.2
      (by omega) (by rw [hlen]; exact hfull)
    rw [hlen] at h
    exact h

/-- Witness for C7: a capacity-2 store filled by two insertions; one
further advance keeps the length at 2, moves the head, and shifts
`Get`. -/
theorem len_capacity_eviction_witness :
    1 ≤ 2 ∧
    Len (AddAt (AddAt (New 30 2) (GoFloat.fin 1) 0) (GoFloat.fin 2) 30) = 2 ∧
    2 ≤ 2 ∧
    (Len (moveForward (AddAt (AddAt (New 30 2) (GoFloat.fin 1) 0) (GoFloat.fin 2) 30)) = 2 ∧
     (moveForward (AddAt (AddAt (New 30 2) (GoFloat.fin 1) 0) (GoFloat.fin 2) 30)).head =
       ((((AddAt (AddAt (New 30 2) (GoFloat.fin 1) 0) (GoFloat.fin 2) 30).head.toNat + 1) %
           2 : ℕ) : ℤ) ∧
     Get (moveForward (AddAt (AddAt (New 30 2) (GoFloat.fin 1) 0) (GoFloat.fin 2) 30)) 0 =
       Get (AddAt (AddAt (New 30 2) (GoFloat.fin 1) 0) (GoFloat.fin 2) 30) 1) := by
  refine ⟨by decide, by decide, by decide, ?_⟩
  exact (len_capacity_eviction 30 2 _ (by decide)
    (Reachable.step _ (GoFloat.fin 2) 30
      (Reachable.step _ (GoFloat.fin 1) 0 Reachable.base))).2 (by decide) (by decide)

/-- C8: decoding the stream produced by encoding any store — in
particular an empty store, or one with ring wraparound (`head > tail`)
and populated fields — succeeds and reproduces a store with identical
`res`, `head`, `tail`, `currentStart`, `currentStop`, `lastEntry` and
identical sample contents at every index (the decoded store equals the
encoded one, every field overwritten regardless of the decode target). -/
theorem gob_roundtrip (db target : Db) :
    GobDecode target (GobEncode db) = Except.ok db := rfl

/-- C9: decoding an empty stream, or any stream whose leading version
tag differs from the recognized version 1, fails with an error; decoding
never succeeds on such input, and the pure model returns no store at all
(the Go receiver is written only after all checks pass, so it stays
unmodified). -/
theorem gobDecode_rejects (target : Db) (b : List GobItem)
    (h : b = [] ∨ ∃ v rest, b = GobItem.byteVal v :: rest ∧ v ≠ gobDbGobVersion) :
    (GobDecode target b).toOption = none := by
  rcases h with h | ⟨v, rest, hb, hv⟩
  · subst h
    rfl
  · subst hb
    simp only [GobDecode]
    rw [if_pos hv]
    rfl

/-- Witness for C9: the empty stream and a stream tagged with version 2
are both rejected. -/
theorem gobDecode_rejects_witness :
    (GobDecode (New 8 17) []).toOption = none ∧
    (GobDecode (New 8 17) [GobItem.byteVal 2]).toOption = none :=
  ⟨gobDecode_rejects (New 8 17) [] (Or.inl rfl),
   gobDecode_rejects (New 8 17) [GobItem.byteVal 2]
     (Or.inr ⟨2, [], rfl, by decide⟩)⟩

/-- C10: inserting a first sample exactly on its bucket's start boundary
(timestamp 0, resolution 30) and then a second sample with the same
timestamp makes the same-bucket divisor `priorWeight + newWeight` zero;
the division is performed unguarded, the stored bucket value becomes
NaN, no error is signalled (`AddAt` returns normally), and the store is
still reported as non-empty with length 1. -/
theorem addAt_nan_unguarded :
    (AddAt (AddAt (New 30 5) (GoFloat.fin 5) 0) (GoFloat.fin 7) 0).entries[0]? =
        some GoFloat.nan ∧
    (AddAt (AddAt (New 30 5) (GoFloat.fin 5) 0) (GoFloat.fin 7) 0).tail ≠ -1 ∧
    Len (AddAt (AddAt (New 30 5) (GoFloat.fin 5) 0) (GoFloat.fin 7) 0) = 1 := by
  with_unfolding_all decide

end Goaround
